import Mathlib

/-!
Shallow embedding of the registry tdb backend
(`source/registry/reg_backend_db.c`) of this repository.

Conventions of the embedding:

* Strings are byte lists (`List Nat`, each entry one byte value).  Registry
  paths, subkey names and raw record payloads are all byte lists.
* The backing transactional key-value store (tdb) is an external collaborator
  of the core (spec section 1 and section 6); it is not part of the sources.
  It is modelled from the spec's required contract: `put`/`get`/`delete` on a
  flat byte-keyed table, where deleting an absent key is not an error, and a
  global sequence number incremented exactly once per committed transaction
  or direct mutation (spec section 6).
* `malloc` returns uninitialized memory and some locals are read before being
  written on certain paths in the C code.  Uninitialized bytes are modelled by
  explicit junk parameters (a `Junk` bundle) which theorems quantify over or
  instantiate; no theorem's conclusion depends on the junk values except where
  the C code genuinely exposes uninitialized data.
* `uint32` arithmetic: lengths are far below `2 ^ 32` everywhere these
  definitions are applied, so `Nat` is used; the one place where C's unsigned
  wrap-around could differ (a failed `tdb_unpack` decrementing `len` below
  zero) is noted at the definition.
-/

namespace RegDb

/-- Byte list of an ASCII string literal (used for concrete keys and names). -/
def str (s : String) : List Nat := s.data.map Char.toNat

/-- Uppercase one ASCII byte, the action of `strupper_m` on ASCII data. -/
def upByte (b : Nat) : Nat := if 97 ≤ b ∧ b ≤ 122 then b - 32 else b

/-- Modelled from the spec: `normalize_reg_path` (reg_util.c, not under src/).
Canonical form of a path: the backslash delimiter (byte 92) is translated to
the store's separator slash (byte 47) and letters are upcased
(spec section 3: "Canonical form = uppercased, delimiter translated to the
store's path separator"). `regdb_fetch_keys` performs the same two steps
inline (`talloc_string_sub` of backslash by slash, then `strupper_m`). -/
def normBytes (l : List Nat) : List Nat :=
  l.map (fun b => if b = 92 then 47 else upByte b)

/-- Modelled from the spec: `strequal` (case-insensitive string equality used
by `regsubkey_ctr_key_exists` and `regval_ctr_key_exists`); on ASCII it is
equality up to letter case. -/
def upEq (a b : List Nat) : Bool := a.map upByte == b.map upByte

/-- Little-endian 4-byte encoding of a 32-bit quantity (tdb_pack format "d"). -/
def le32 (n : Nat) : List Nat :=
  [n % 256, n / 256 % 256, n / 65536 % 256, n / 16777216 % 256]

/-- Value of 4 little-endian bytes. -/
def rd32 (b0 b1 b2 b3 : Nat) : Nat := b0 + 256 * b1 + 65536 * b2 + 16777216 * b3

/-- Modelled from the spec: `tdb_unpack` item "d" (util_tdb.c, not under
src/): reads a 4-byte little-endian count, fails (`no_space`, return -1) when
fewer than 4 bytes remain (spec section 4.2: a leading count field). Returns
the decoded value and the consumed length. -/
def unpack_d : List Nat → Option (Nat × Nat)
  | b0 :: b1 :: b2 :: b3 :: _ => some (rd32 b0 b1 b2 b3, 4)
  | _ => none

/-- Index of the first zero byte, if any. -/
def firstZero : List Nat → Option Nat
  | [] => none
  | b :: rest => if b = 0 then some 0 else (firstZero rest).map (· + 1)

/-- Modelled from the spec: `tdb_unpack` item "f" (util_tdb.c, not under
src/): reads a zero-terminated name of fixed fstring capacity (256 bytes,
spec section 4.2: "fixed-capacity null-terminated name fields"); fails when no
terminator lies inside the remaining buffer or the field exceeds the
capacity.  (C scans with `strlen` and then checks the bounds; a terminator
outside the buffer is undefined behaviour in C and a failure here.) -/
def unpack_f (buf : List Nat) : Option (List Nat × Nat) :=
  match firstZero buf with
  | none => none
  | some i => if 256 < i + 1 then none else some (buf.take i, i + 1)

/-- One packed name field: the bytes followed by the zero terminator. -/
def packName (s : List Nat) : List Nat := s ++ [0]

/-- Reference encoding of a subkey record: leading count, then the run of
zero-terminated names (spec section 4.2).  This is what
`regdb_store_keys_internal` stores whenever its 1024-byte buffer does not
overflow. -/
def packSubkeys (L : List (List Nat)) : List Nat :=
  le32 L.length ++ (L.map packName).flatten

/-- Clean decoding of `n` packed name fields (used to state hypotheses about
well-formed stored records). -/
def parseNames : Nat → List Nat → Option (List (List Nat))
  | 0, _ => some []
  | n + 1, buf =>
    (unpack_f buf).bind (fun r => (parseNames n (buf.drop r.2)).map (r.1 :: ·))

/-- Clean decoding of a subkey record payload: count then that many names;
trailing bytes are ignored, exactly as the fetch loop ignores them. -/
def parseSubkeys (payload : List Nat) : Option (List (List Nat)) :=
  match unpack_d payload with
  | none => none
  | some (n, _) => parseNames n (payload.drop 4)

/-- Uninitialized-memory oracle: `fname` models the uninitialized local
`fstring subkeyname` of `regdb_fetch_keys`, `count` the uninitialized
`num_items` read when the leading count cannot be decoded, `buf` the content
of the freshly `SMB_MALLOC`ed 1024-byte pack buffer and `buf2` the content of
memory past the old size after `SMB_REALLOC`. -/
structure Junk where
  fname : List Nat
  count : Nat
  buf : Nat → Nat
  buf2 : Nat → Nat

/-- The backing store: a flat table from physical keys to raw payloads plus
the global sequence number (modelled from the spec's external contract,
section 6). -/
structure DB where
  tbl : List Nat → Option (List Nat)
  seq : Nat

/-- tdb `get`: fetch the payload stored under a physical key. -/
def dbGet (db : DB) (k : List Nat) : Option (List Nat) := db.tbl k

/-- tdb `put` on the raw table (inside a transaction; the sequence number is
accounted at commit). -/
def tblPut (t : List Nat → Option (List Nat)) (k v : List Nat) :
    List Nat → Option (List Nat) :=
  fun x => if x = k then some v else t x

/-- tdb `delete` on the raw table; deleting an absent key is not an error
(spec section 6). -/
def tblDel (t : List Nat → Option (List Nat)) (k : List Nat) :
    List Nat → Option (List Nat) :=
  fun x => if x = k then none else t x

/-- Result of `regdb_fetch_keys`: the C return value (-1 on a missing record,
otherwise the stored count), the accumulated subkey list, and the sequence
number stamped into the container (`none` when the lock timed out and the
function returned before stamping). -/
structure FetchKeysRes where
  ret : Int
  subkeys : List (List Nat)
  seqnum : Option Nat
deriving DecidableEq

/-- Decode loop of `regdb_fetch_keys` (lines 663-668): iterates the stored
count, adding one name per iteration.  A failed `tdb_unpack` returns -1 which
the C code adds to `len` without any error check, and
`regsubkey_ctr_addkey` is then called with the unchanged previous content of
the `subkeyname` local (`cur`).  `len - 1` is Nat-truncated; the C `uint32`
wrap-around at `len = 0` (followed by a wild read) is never reached in any
theorem below. -/
def fetchKeysLoop : Nat → List Nat → Nat → List Nat → List (List Nat) →
    Nat × List (List Nat)
  | 0, _, len, _, acc => (len, acc.reverse)
  | n + 1, buf, len, cur, acc =>
    match unpack_f (buf.drop len) with
    | some (nm, c) => fetchKeysLoop n buf (len + c) nm (nm :: acc)
    | none => fetchKeysLoop n buf (len - 1) cur (cur :: acc)

/-- Embedding of `regdb_fetch_keys` (lines 619-678).  `timeout` is the
environment's choice of whether the bounded-timeout read lock failed: in that
case the C code returns 0 immediately, before fetching and before stamping
the sequence number.  On a missing record it returns -1 (with the sequence
number already stamped).  When the leading count itself cannot be decoded the
C code loops over an uninitialized `num_items` reading wild memory
(undefined behaviour); that branch is modelled through the junk oracle and no
theorem relies on it. -/
def regdb_fetch_keys (jk : Junk) (db : DB) (key : List Nat) (timeout : Bool) :
    FetchKeysRes :=
  let path := normBytes key
  if timeout then ⟨0, [], none⟩
  else
    match dbGet db path with
    | none => ⟨-1, [], some db.seq⟩
    | some payload =>
      match unpack_d payload with
      | some (n, _) =>
        let r := fetchKeysLoop n payload 4 jk.fname []
        ⟨(n : Int), r.2, some db.seq⟩
      | none => ⟨(jk.count : Int), List.replicate jk.count jk.fname, some db.seq⟩

/-- Splice `bytes` into `buf` at offset `off` (the effect of `memcpy` into the
pack buffer).  Every use below satisfies `off + bytes.length ≤ buf.length`. -/
def writeBytes (buf : List Nat) (off : Nat) (bytes : List Nat) : List Nat :=
  buf.take off ++ bytes ++ buf.drop (off + bytes.length)

/-- Packing loop of `regdb_store_keys_internal` (lines 403-416), including its
buffer-overflow handling: `tdb_pack` "f" writes the name only when it fits in
the remaining space and always returns the needed length; when `len` exceeds
`buflen` the code reallocates to `len*2`, then re-packs the single name at
offset `len` (not at the position the name should occupy) and resets `len` to
the return value of that single pack.  Arguments: names left, buffer, `len`,
`buflen`; the buffer list always has length `buflen`. -/
def storeKeysLoop (junk2 : Nat → Nat) :
    List (List Nat) → List Nat → Nat → Nat → List Nat × Nat × Nat
  | [], buf, len, buflen => (buf, len, buflen)
  | name :: rest, buf, len, buflen =>
    let itemlen := name.length + 1
    let bufsize := buflen - len
    let buf1 := if bufsize ≠ 0 ∧ itemlen ≤ bufsize then
        writeBytes buf len (packName name) else buf
    let len1 := len + itemlen
    if buflen < len1 then
      let buflen2 := len1 * 2
      let buf2 := buf1 ++ ((List.range buflen2).map junk2).drop buf1.length
      let buf3 := writeBytes buf2 len1 (packName name)
      storeKeysLoop junk2 rest buf3 itemlen buflen2
    else
      storeKeysLoop junk2 rest buf1 len1 buflen

/-- Embedding of `regdb_store_keys_internal` (lines 368-430): normalizes the
key, packs the count and the names into a 1024-byte `SMB_MALLOC`ed buffer
(uninitialized content `jk.buf`), and stores the first `len` bytes of the
buffer under the normalized key.  Runs inside the caller's transaction, so it
acts on the raw table. -/
def regdb_store_keys_internal (jk : Junk) (tbl : List Nat → Option (List Nat))
    (key : List Nat) (ctr : List (List Nat)) : List Nat → Option (List Nat) :=
  let keyname := normBytes key
  let buf0 := (List.range 1024).map jk.buf
  let buf1 := writeBytes buf0 0 (le32 ctr.length)
  let r := storeKeysLoop jk.buf2 ctr buf1 4 1024
  tblPut tbl keyname (r.1.take r.2.1)

/-- Modelled from the spec: `REG_VALUE_PREFIX` (rpc_reg.h, not under src/),
the namespace tag of value records; spec section 6 gives the physical key as
`"REG_VALUES/" + CANON(path)`. -/
def valueNS : List Nat := str "REG_VALUES"

/-- Modelled from the spec: `REG_SECDESC_PREFIX` (not under src/); spec
section 6 gives the physical key as `"REG_SECDESC/" + CANON(path)`. -/
def secdescNS : List Nat := str "REG_SECDESC"

/-- Physical key of the subkey record of child `name` of `key`
(`talloc_asprintf("%s/%s", key, oldkeyname)` then `normalize_reg_path`). -/
def childKey (key name : List Nat) : List Nat := normBytes (key ++ [47] ++ name)

/-- Physical key of the value record of child `name` of `key`
(`talloc_asprintf("%s/%s/%s", REG_VALUE_PREFIX, key, oldkeyname)` then
`normalize_reg_path`). -/
def valChildKey (key name : List Nat) : List Nat :=
  normBytes (valueNS ++ [47] ++ key ++ [47] ++ name)

/-- Deletion pass of `regdb_store_keys` (lines 502-547): every old subkey name
for which no case-insensitively equal name remains in the new list
(`regsubkey_ctr_key_exists` uses `strequal`) has its subkey record and its
value record deleted.  Deleting an absent record is not an error in the
modelled store contract (the C code additionally ignores the value-record
delete result, "we might have no values around"). -/
def deleteRemoved (key : List Nat) (ctr : List (List Nat)) :
    List (List Nat) → (List Nat → Option (List Nat)) →
    (List Nat → Option (List Nat))
  | [], tbl => tbl
  | oldname :: rest, tbl =>
    if ctr.any (fun m => upEq m oldname) then deleteRemoved key ctr rest tbl
    else
      deleteRemoved key ctr rest
        (tblDel (tblDel tbl (childKey key oldname)) (valChildKey key oldname))

/-- Stub-creation pass of `regdb_store_keys` (lines 570-593): every name of
the new list whose subkey record does not exist (fetch returns -1) gets an
empty stub record. -/
def createStubs (jk : Junk) (seq : Nat) (key : List Nat) :
    List (List Nat) → (List Nat → Option (List Nat)) →
    (List Nat → Option (List Nat))
  | [], tbl => tbl
  | m :: rest, tbl =>
    let path := key ++ [47] ++ m
    let r := regdb_fetch_keys jk ⟨tbl, seq⟩ path false
    let tbl1 := if r.ret = -1 then regdb_store_keys_internal jk tbl path [] else tbl
    createStubs jk seq key rest tbl1

/-- Embedding of `regdb_store_keys` (lines 437-611).  Fast path: if the new
list and the freshly fetched old list are both non-empty, of equal length and
pointwise `strcmp`-equal, return success without touching the store and
without a transaction.  Otherwise, inside one transaction: re-fetch the old
list, store the new subkey record for the parent, delete the records of
removed children, re-store an empty record when the new list is empty, create
stub records for new children, and commit (one sequence-number increment per
committed transaction, spec section 6).  Fetches are taken with the read lock
acquired (`timeout = false`); allocation failures and store/delete failures
of the modelled external contract do not occur, so the cancel path is not
reachable here. -/
def regdb_store_keys (jk : Junk) (db : DB) (key : List Nat)
    (ctr : List (List Nat)) : DB × Bool :=
  let old := regdb_fetch_keys jk db key false
  if ctr.length ≠ 0 ∧ old.subkeys.length ≠ 0 ∧ ctr.length = old.subkeys.length ∧
      ctr = old.subkeys then
    (db, true)
  else
    let old2 := regdb_fetch_keys jk db key false
    let tbl1 := regdb_store_keys_internal jk db.tbl key ctr
    let tbl2 := deleteRemoved key ctr old2.subkeys tbl1
    let tbl3 := if ctr.length = 0 then regdb_store_keys_internal jk tbl2 key []
      else tbl2
    let tbl4 := createStubs jk db.seq key ctr tbl3
    (⟨tbl4, db.seq + 1⟩, true)

/-- A registry value as held by a `REGVAL_CTR`: name, type tag and data bytes
(`regval_ctr_addvalue` copies `size` bytes, so the stored size is the data
length). -/
structure RegVal where
  name : List Nat
  vtype : Nat
  data : List Nat
deriving DecidableEq

/-- One packed value tuple, tdb format "fdB": zero-terminated name, 4-byte
type, 4-byte length, then that many data bytes (a zero length stores no data
bytes). -/
def packVal (v : RegVal) : List Nat :=
  packName v.name ++ le32 v.vtype ++ le32 v.data.length ++ v.data

/-- Embedding of `regdb_pack_values` (lines 729-757) as the bytes produced:
leading count then the packed tuples.  `regdb_store_values` allocates the
buffer at exactly the needed length (a first dry-run pack computes it), so no
overflow handling is involved here. -/
def packValues (vals : List RegVal) : List Nat :=
  le32 vals.length ++ (vals.map packVal).flatten

/-- Physical key of the value record of `key`
(`talloc_asprintf("%s/%s", REG_VALUE_PREFIX, key)` then
`normalize_reg_path`). -/
def valKeyOf (key : List Nat) : List Nat := normBytes (valueNS ++ [47] ++ key)

/-- Embedding of `regdb_store_values` (lines 801-852): pack the list, and if
the stored bytes are identical do nothing; otherwise write the record in a
one-store transaction (`tdb_trans_store_bystring`, one sequence increment). -/
def regdb_store_values (db : DB) (key : List Nat) (values : List RegVal) :
    DB × Bool :=
  let data := packValues values
  let keystr := valKeyOf key
  match dbGet db keystr with
  | some old =>
    if old = data then (db, true)
    else (⟨tblPut db.tbl keystr data, db.seq + 1⟩, true)
  | none => (⟨tblPut db.tbl keystr data, db.seq + 1⟩, true)

/-- Result of one `tdb_unpack(buf, n, "fdB", ...)` call: the C return value
(-1 on failure) together with the final contents of the four output
variables, given that `regdb_unpack_values` presets them to
(empty name, REG_NONE, 0, NULL) each round.  The items are processed left to
right, so outputs written before the failing item keep their new values
("B" assigns the size before checking that the data fits; a zero size yields
a NULL data pointer and succeeds). -/
def unpack_fdB (buf : List Nat) : Int × List Nat × Nat × Nat × Option (List Nat) :=
  match unpack_f buf with
  | none => (-1, [], 0, 0, none)
  | some (nm, c1) =>
    match unpack_d (buf.drop c1) with
    | none => (-1, nm, 0, 0, none)
    | some (ty, _) =>
      match unpack_d (buf.drop (c1 + 4)) with
      | none => (-1, nm, ty, 0, none)
      | some (sz, _) =>
        if sz = 0 then (((c1 + 8 : Nat) : Int), nm, ty, 0, none)
        else if (buf.drop (c1 + 8)).length < sz then (-1, nm, ty, sz, none)
        else (((c1 + 8 + sz : Nat) : Int), nm, ty, sz,
          some ((buf.drop (c1 + 8)).take sz))

/-- Iteration of `regdb_unpack_values` (lines 698-720): loops the stored
count; a failed `tdb_unpack` returns -1 which is added to the offset without
any error check, and the guard at line 713 silently skips every entry whose
name is empty, whose size is zero or whose data pointer is NULL.  A negative
offset would make C read before the buffer (undefined behaviour); `Int.toNat`
clamps instead, and no theorem below evaluates such a state. -/
def unpackValuesLoop : Nat → List Nat → Int → List RegVal → Int × List RegVal
  | 0, _, len, acc => (len, acc.reverse)
  | n + 1, buf, len, acc =>
    let r := unpack_fdB (buf.drop len.toNat)
    let acc1 := match r with
      | (_, nm, ty, sz, some d) =>
        if nm ≠ [] ∧ sz ≠ 0 then ⟨nm, ty, d⟩ :: acc else acc
      | (_, _, _, _, none) => acc
    unpackValuesLoop n buf (len + r.1) acc1

/-- Embedding of `regdb_unpack_values` (lines 684-723): reads the count
(preset 0, so a short buffer yields offset -1 and no iterations), then runs
the decode loop.  Returns the final offset (the C return value) and the
accumulated values. -/
def regdb_unpack_values (buf : List Nat) : Int × List RegVal :=
  match unpack_d buf with
  | none => (-1, [])
  | some (n, _) => unpackValuesLoop n buf 4 []

/-- Result of `regdb_fetch_values`: the C return value (the number of decoded
values; 0 both on a missing record and on a lock timeout), the value list,
and the stamped sequence number (`none` when the timeout path returned before
stamping). -/
structure FetchValsRes where
  ret : Int
  vals : List RegVal
  seqnum : Option Nat
deriving DecidableEq

/-- Embedding of `regdb_fetch_values` (lines 764-799).  On a lock timeout the
C code returns 0 before fetching and before stamping the sequence number; a
missing record is the valid "zero values" result 0 (with the sequence number
stamped). -/
def regdb_fetch_values (db : DB) (key : List Nat) (timeout : Bool) :
    FetchValsRes :=
  let keystr := valKeyOf key
  if timeout then ⟨0, [], none⟩
  else
    match dbGet db keystr with
    | none => ⟨0, [], some db.seq⟩
    | some payload =>
      let r := regdb_unpack_values payload
      ⟨r.2.length, r.2, some db.seq⟩

/-- WERROR outcomes used by the security-descriptor operations. -/
inductive WErr
  | ok
  | badfile
  | nomem
  | regCorrupt
deriving DecidableEq

/-- Physical key of the security-descriptor record of `key`
(`talloc_asprintf("%s/%s", REG_SECDESC_PREFIX, key)` then `normalize_dbkey`,
which performs the same separator translation and upcasing). -/
def secKeyOf (key : List Nat) : List Nat := normBytes (secdescNS ++ [47] ++ key)

/-- Embedding of `regdb_get_secdesc` (lines 854-889): a missing record is
`WERR_BADFILE`; otherwise the stored bytes are unmarshalled.  Marshalling is
modelled from the spec as the identity on the descriptor's byte image
(`marshall_sec_desc`/`unmarshall_sec_desc` are external generated
marshalling, spec section 1), so a record written by `regdb_set_secdesc`
always unmarshals successfully. -/
def regdb_get_secdesc (db : DB) (key : List Nat) : WErr × Option (List Nat) :=
  match dbGet db (secKeyOf key) with
  | none => (WErr.badfile, none)
  | some data => (WErr.ok, some data)

/-- Embedding of `regdb_set_secdesc` (lines 891-943): a NULL descriptor is a
delete (`tdb_trans_delete`; deleting an absent record is not an error in the
modelled store contract, spec section 6, so the result is `WERR_OK`); a
non-NULL descriptor is marshalled and written in a one-store transaction. -/
def regdb_set_secdesc (db : DB) (key : List Nat) (secdesc : Option (List Nat)) :
    DB × WErr :=
  let tdbkey := secKeyOf key
  match secdesc with
  | none => (⟨tblDel db.tbl tdbkey, db.seq + 1⟩, WErr.ok)
  | some bytes => (⟨tblPut db.tbl tdbkey bytes, db.seq + 1⟩, WErr.ok)

/-- Registry value type tags (REG_NONE = 0, REG_SZ = 1, REG_DWORD = 4). -/
def regSzTag : Nat := 1

/-- Type tag of REG_DWORD values. -/
def regDwordTag : Nat := 4

/-- Modelled from the spec: `init_unistr2` with `UNI_STR_TERMINATE` (not
under src/): the UTF-16LE image of the string plus a terminating 16-bit zero
(`uni_str_len * sizeof(uint16)` bytes are stored). -/
def utf16lez (s : List Nat) : List Nat :=
  (s.map (fun c => [c % 256, c / 256 % 256])).flatten ++ [0, 0]

/-- Data union of one `builtin_regkey_value` entry (lines 60-68). -/
inductive BuiltinData
  | dw (v : Nat)
  | sz (s : List Nat)
deriving DecidableEq

/-- One `builtin_regkey_value` entry: path, value name, type tag, data. -/
structure BuiltinVal where
  path : List Nat
  vname : List Nat
  vtype : Nat
  bdata : BuiltinData
deriving DecidableEq

/-- Modelled from the spec: `regval_ctr_key_exists` (reg_objects.c, not under
src/): whether a value of the given name is present, compared with the
case-insensitive `strequal`. -/
def regval_ctr_key_exists (vals : List RegVal) (nm : List Nat) : Bool :=
  vals.any (fun v => upEq v.name nm)

/-- Data bytes produced by the `switch` at lines 203-224: a 4-byte
little-endian image for `REG_DWORD`, a terminated UTF-16LE image for
`REG_SZ`, and no entry at all for an invalid type (the real table only pairs
each tag with its matching union member). -/
def builtinBytes : Nat → BuiltinData → Option (List Nat)
  | 4, BuiltinData.dw v => some (le32 v)
  | 1, BuiltinData.sz s => some (utf16lez s)
  | _, _ => none

/-- One round of the value-seeding loop of `init_registry_data`
(lines 192-228): fetch the existing value list at the entry's path and, only
when no value of that name is already present, append the built-in default
and store the list back ("preserve existing values across restarts.  Only add
new ones").  On the invalid-type branch the fetched list is stored back
unchanged. -/
def seedValue (db : DB) (e : BuiltinVal) : DB :=
  let vals := (regdb_fetch_values db e.path false).vals
  if regval_ctr_key_exists vals e.vname then db
  else
    let vals1 := match builtinBytes e.vtype e.bdata with
      | some bytes => vals ++ [⟨e.vname, e.vtype, bytes⟩]
      | none => vals
    (regdb_store_values db e.path vals1).1

/-- The `ErrorControl` entry of `builtin_registry_values` (lines 77-78):
`(KEY_EVENTLOG, "ErrorControl", REG_DWORD, 1)`.  The `KEY_EVENTLOG` macro is
not under src/; its concrete path follows the spec's built-in eventlog key
and does not affect any claim. -/
def errorControlEntry : BuiltinVal :=
  ⟨str "HKLM\\SYSTEM\\CurrentControlSet\\Services\\Eventlog",
   str "ErrorControl", regDwordTag, BuiltinData.dw 1⟩

/-- Process state of the shared registry handle: whether `tdb_reg` is
non-NULL and the value of `tdb_refcount` (an `int` in C, hence `Int`). -/
structure HandleSt where
  opened : Bool
  refcount : Int
deriving DecidableEq

/-- Embedding of `regdb_close` (lines 333-350): a close at refcount zero
returns success immediately, neither decrementing nor releasing; otherwise
the count is decremented and the underlying handle is released
(`TALLOC_FREE(tdb_reg)`) only when the count reaches zero.  Returns the new
state and the C return value (always 0). -/
def regdb_close (s : HandleSt) : HandleSt × Int :=
  if s.refcount = 0 then (s, 0)
  else
    let r := s.refcount - 1
    if 0 < r then ({ s with refcount := r }, 0)
    else ({ opened := false, refcount := r }, 0)

/-- Handle management of `regdb_init` (lines 256-297): an existing handle is
re-referenced; otherwise the tdb is opened (`ok` says whether the open
succeeded) and only on success is the refcount set to 1 (on failure the
function returns false with the state unchanged).  The subsequent data
seeding does not touch the refcount. -/
def regdb_init_h (s : HandleSt) (ok : Bool) : HandleSt × Bool :=
  if s.opened then ({ s with refcount := s.refcount + 1 }, true)
  else if ok then ({ opened := true, refcount := 1 }, true)
  else (s, false)

/-- Embedding of `regdb_open` (lines 303-328): an existing handle is
re-referenced; otherwise the tdb is opened and `tdb_refcount` is reset to 1
unconditionally, even when the open failed (the C code sets it after the
attempt, outside any success check). -/
def regdb_open_h (s : HandleSt) (ok : Bool) : HandleSt × Bool :=
  if s.opened then ({ s with refcount := s.refcount + 1 }, true)
  else ({ opened := ok, refcount := 1 }, ok)

/-- One handle operation: an init or open attempt (with the open outcome
chosen by the environment) or a close. -/
inductive HOp
  | initOp (ok : Bool)
  | openOp (ok : Bool)
  | closeOp
deriving DecidableEq

/-- Step of the handle state machine. -/
def hstep (s : HandleSt) : HOp → HandleSt
  | HOp.initOp ok => (regdb_init_h s ok).1
  | HOp.openOp ok => (regdb_open_h s ok).1
  | HOp.closeOp => (regdb_close s).1

/-- Run a sequence of handle operations. -/
def hrun (ops : List HOp) (s : HandleSt) : HandleSt := ops.foldl hstep s

/-- The initial process state: no handle, refcount 0 (C static globals). -/
def hInit : HandleSt := ⟨false, 0⟩

/-! Validity of registry names: bounded by the fstring capacity, no NUL byte
(string terminator), and no separator byte in either style.  Real registry
component names satisfy all of these. -/

/-- A well-formed registry component name: it fits an fstring (at most 255
bytes plus the terminator), contains no NUL and no separator of either
style. -/
def validName (s : List Nat) : Prop :=
  s.length ≤ 255 ∧ ∀ b ∈ s, b ≠ 0 ∧ b ≠ 47 ∧ b ≠ 92

instance validName.dec (s : List Nat) : Decidable (validName s) := by
  unfold validName; infer_instance

/-- Packed length of a subkey record (count field plus the name run). -/
def packedLen (L : List (List Nat)) : Nat := 4 + ((L.map packName).flatten).length

theorem upEq_refl (a : List Nat) : upEq a a = true := by
  simp [upEq]

theorem normBytes_append (a b : List Nat) :
    normBytes (a ++ b) = normBytes a ++ normBytes b := by
  simp [normBytes]

theorem normBytes_length (a : List Nat) : (normBytes a).length = a.length := by
  simp [normBytes]

theorem normByte_eq_47 (b : Nat) :
    (if b = 92 then 47 else upByte b) = 47 ↔ b = 92 ∨ b = 47 := by
  unfold upByte
  split <;> rename_i h1
  · simp [h1]
  · split <;> rename_i h2 <;> omega

theorem count47_normBytes (s : List Nat) (hs : ∀ b ∈ s, b ≠ 47 ∧ b ≠ 92) :
    (normBytes s).count 47 = 0 := by
  rw [List.count_eq_zero]
  intro h
  simp only [normBytes, List.mem_map] at h
  obtain ⟨b, hb, hEq⟩ := h
  have := (normByte_eq_47 b).mp hEq
  rcases this with h' | h' <;> exact absurd h' (by
    have := hs b hb
    omega)

theorem normBytes_valid_no47 (s : List Nat) (hs : validName s) :
    (normBytes s).count 47 = 0 :=
  count47_normBytes s (fun b hb => ⟨(hs.2 b hb).2.1, (hs.2 b hb).2.2⟩)

theorem normBytes_valid_eq_upper (s : List Nat) (hs : validName s) :
    normBytes s = s.map upByte := by
  simp only [normBytes]
  apply List.map_congr_left
  intro b hb
  have := hs.2 b hb
  rw [if_neg this.2.2]

theorem upEq_iff_norm (a b : List Nat) (ha : validName a) (hb : validName b) :
    upEq a b = true ↔ normBytes a = normBytes b := by
  rw [normBytes_valid_eq_upper a ha, normBytes_valid_eq_upper b hb]
  simp [upEq]

theorem normBytes_sep : normBytes [47] = [47] := by decide

theorem normBytes_valueNS : normBytes valueNS = valueNS := by decide

theorem normBytes_secdescNS : normBytes secdescNS = secdescNS := by decide

/-- Unfolding of `childKey` into segments. -/
theorem childKey_eq (k n : List Nat) :
    childKey k n = normBytes k ++ 47 :: normBytes n := by
  unfold childKey
  simp only [normBytes_append, normBytes_sep, List.append_assoc]
  rfl

/-- Unfolding of `valChildKey` into segments. -/
theorem valChildKey_eq (k n : List Nat) :
    valChildKey k n = valueNS ++ 47 :: (normBytes k ++ 47 :: normBytes n) := by
  unfold valChildKey
  simp only [normBytes_append, normBytes_sep, normBytes_valueNS, List.append_assoc]
  rfl

/-- Unfolding of `valKeyOf` into segments. -/
theorem valKeyOf_eq (k : List Nat) : valKeyOf k = valueNS ++ 47 :: normBytes k := by
  unfold valKeyOf
  simp only [normBytes_append, normBytes_sep, normBytes_valueNS, List.append_assoc]
  rfl

/-- Unfolding of `secKeyOf` into segments. -/
theorem secKeyOf_eq (k : List Nat) : secKeyOf k = secdescNS ++ 47 :: normBytes k := by
  unfold secKeyOf
  simp only [normBytes_append, normBytes_sep, normBytes_secdescNS, List.append_assoc]
  rfl

/-- A namespace-tagged key can only coincide with a slash-joined key whose
first segment is that namespace tag. -/
theorem ns_key_ne (ns a t u : List Nat) (h47 : 47 ∉ ns)
    (hpre : a.take ns.length ≠ ns) : ns ++ 47 :: t ≠ a ++ 47 :: u := by
  intro hEq
  rcases le_or_lt ns.length a.length with h | h
  · apply hpre
    have h1 : (ns ++ 47 :: t).take ns.length = ns := List.take_left ns _
    have h2 : (a ++ 47 :: u).take ns.length = a.take ns.length :=
      List.take_append_of_le_length h
    rw [hEq, h2] at h1
    exact h1
  · have h1 : (a ++ 47 :: u).take (a.length + 1) = a ++ [47] := by
      rw [List.take_append]
      rfl
    have h2 : (ns ++ 47 :: t).take (a.length + 1) = ns.take (a.length + 1) :=
      List.take_append_of_le_length (by omega)
    rw [hEq, h1] at h2
    have h3 : (47 : Nat) ∈ a ++ [47] := by simp
    rw [h2] at h3
    exact h47 (List.mem_of_mem_take h3)

theorem no47_valueNS : (47 : Nat) ∉ valueNS := by decide

theorem no47_secdescNS : (47 : Nat) ∉ secdescNS := by decide

theorem childKey_ne_parent (k n : List Nat) : childKey k n ≠ normBytes k := by
  intro h
  have := congrArg List.length h
  rw [childKey_eq] at this
  simp at this

theorem valChildKey_ne_parent (k n : List Nat) : valChildKey k n ≠ normBytes k := by
  intro h
  have := congrArg List.length h
  rw [valChildKey_eq] at this
  simp [valueNS, str] at this
  omega

/-- A subkey-record key of parent `k` never equals a value-record key of the
same parent: the value key carries one more slash once the child names are
slash-free. -/
theorem childKey_ne_valChild (k a b : List Nat) (ha : validName a)
    (hb : validName b) : childKey k a ≠ valChildKey k b := by
  intro h
  have hcnt := congrArg (List.count 47) h
  rw [childKey_eq, valChildKey_eq] at hcnt
  simp only [List.count_append, List.count_cons_self] at hcnt
  rw [normBytes_valid_no47 a ha, normBytes_valid_no47 b hb] at hcnt
  have hv : valueNS.count 47 = 0 := by decide
  rw [hv] at hcnt
  omega

theorem firstZero_append (s t : List Nat) (hs : ∀ b ∈ s, b ≠ 0) :
    firstZero (s ++ 0 :: t) = some s.length := by
  induction s with
  | nil => simp [firstZero]
  | cons b rest ih =>
    have hb : b ≠ 0 := hs b (by simp)
    simp only [List.cons_append, firstZero, if_neg hb, List.append_eq]
    rw [ih (fun x hx => hs x (by simp [hx]))]
    rfl

theorem unpack_f_packed (s t : List Nat) (h0 : ∀ b ∈ s, b ≠ 0)
    (hfs : s.length ≤ 255) :
    unpack_f (s ++ 0 :: t) = some (s, s.length + 1) := by
  unfold unpack_f
  rw [firstZero_append s t h0]
  have hlen : ¬ 256 < s.length + 1 := by omega
  simp only [if_neg hlen]
  rw [List.take_left]

theorem unpack_d_le32 (n : Nat) (t : List Nat) (hn : n < 4294967296) :
    unpack_d (le32 n ++ t) = some (n, 4) := by
  simp only [le32, List.cons_append, List.nil_append, unpack_d, rd32]
  congr 1
  congr 1
  omega

theorem le32_length (n : Nat) : (le32 n).length = 4 := by simp [le32]

theorem parseNames_length (n : Nat) (buf : List Nat) (L : List (List Nat))
    (h : parseNames n buf = some L) : L.length = n := by
  induction n generalizing buf L with
  | zero =>
    simp only [parseNames, Option.some.injEq] at h
    simp [← h]
  | succ m ih =>
    unfold parseNames at h
    cases hu : unpack_f buf with
    | none => rw [hu] at h; exact absurd h (by simp)
    | some r =>
      obtain ⟨nm, c⟩ := r
      rw [hu] at h
      simp only [Option.some_bind] at h
      cases hp : parseNames m (buf.drop c) with
      | none => rw [hp] at h; exact absurd h (by simp)
      | some L' =>
        rw [hp] at h
        simp only [Option.map_some', Option.some.injEq] at h
        have := ih (buf.drop c) L' hp
        simp [← h, this]

theorem parseNames_pack (L : List (List Nat)) (hL : ∀ s ∈ L, validName s)
    (rest : List Nat) :
    parseNames L.length ((L.map packName).flatten ++ rest) = some L := by
  induction L with
  | nil => simp [parseNames]
  | cons s L' ih =>
    have hs : validName s := hL s (by simp)
    simp only [List.map_cons, List.flatten_cons, List.length_cons, packName,
      List.append_assoc, List.singleton_append, List.cons_append]
    unfold parseNames
    rw [unpack_f_packed s _ (fun b hb => (hs.2 b hb).1) hs.1]
    have hdrop : ((s ++ 0 :: ((L'.map packName).flatten ++ rest)).drop (s.length + 1))
        = (L'.map packName).flatten ++ rest := by
      have hsplit : s ++ 0 :: ((L'.map packName).flatten ++ rest)
          = (s ++ [0]) ++ ((L'.map packName).flatten ++ rest) := by simp
      have hl : (s ++ [0]).length = s.length + 1 := by simp
      rw [hsplit, ← hl, List.drop_left]
    simp only [Option.some_bind, List.nil_append, hdrop,
      ih (fun x hx => hL x (by simp [hx])), Option.map_some']

theorem parseSubkeys_pack (L : List (List Nat)) (hL : ∀ s ∈ L, validName s)
    (hlen : L.length < 4294967296) :
    parseSubkeys (packSubkeys L) = some L := by
  unfold parseSubkeys packSubkeys
  rw [unpack_d_le32 L.length _ hlen]
  have : (le32 L.length ++ (L.map packName).flatten).drop 4 =
      (L.map packName).flatten := by
    rw [← le32_length L.length, List.drop_left]
  rw [this]
  have := parseNames_pack L hL []
  simpa using this

theorem normBytes_sep92 : normBytes [92] = [47] := by decide

/-- The fetch decode loop agrees with the clean parser whenever the clean
parser succeeds (in that case no junk is ever consulted). -/
theorem fetchKeysLoop_parse (n : Nat) :
    ∀ (buf : List Nat) (len : Nat) (cur : List Nat) (acc L : List (List Nat)),
    parseNames n (buf.drop len) = some L →
    (fetchKeysLoop n buf len cur acc).2 = acc.reverse ++ L := by
  induction n with
  | zero =>
    intro buf len cur acc L h
    simp only [parseNames, Option.some.injEq] at h
    simp [fetchKeysLoop, ← h]
  | succ m ih =>
    intro buf len cur acc L h
    unfold parseNames at h
    cases hu : unpack_f (buf.drop len) with
    | none => rw [hu] at h; exact absurd h (by simp)
    | some r =>
      obtain ⟨nm, c⟩ := r
      rw [hu] at h
      simp only [Option.some_bind] at h
      cases hp : parseNames m ((buf.drop len).drop c) with
      | none => rw [hp] at h; exact absurd h (by simp)
      | some L' =>
        rw [hp] at h
        simp only [Option.map_some', Option.some.injEq] at h
        have hdd : (buf.drop len).drop c = buf.drop (len + c) := by
          rw [List.drop_drop, Nat.add_comm]
        unfold fetchKeysLoop
        rw [hu]
        show (fetchKeysLoop m buf (len + c) nm (nm :: acc)).2 = acc.reverse ++ L
        rw [ih buf (len + c) nm (nm :: acc) L' (by rw [← hdd]; exact hp)]
        simp [← h]

/-- A fetch of a record whose payload parses cleanly returns the decoded
list, junk-independently, with the sequence number stamped. -/
theorem fetch_parse (jk : Junk) (db : DB) (key : List Nat) (payload : List Nat)
    (L : List (List Nat)) (hget : dbGet db (normBytes key) = some payload)
    (hp : parseSubkeys payload = some L) :
    regdb_fetch_keys jk db key false = ⟨(L.length : Int), L, some db.seq⟩ := by
  unfold parseSubkeys at hp
  cases hd : unpack_d payload with
  | none => rw [hd] at hp; exact absurd hp (by simp)
  | some r =>
    obtain ⟨n, c⟩ := r
    rw [hd] at hp
    have hn : L.length = n := parseNames_length n _ L hp
    have hloop := fetchKeysLoop_parse n payload 4 jk.fname [] L hp
    unfold regdb_fetch_keys
    simp only [Bool.false_eq_true, if_false, hget, hd, hloop, List.reverse_nil,
      List.nil_append, hn]

/-- A fetch of an absent record returns -1 with the sequence number
stamped. -/
theorem fetch_absent (jk : Junk) (db : DB) (key : List Nat)
    (h : dbGet db (normBytes key) = none) :
    regdb_fetch_keys jk db key false = ⟨-1, [], some db.seq⟩ := by
  unfold regdb_fetch_keys
  simp only [Bool.false_eq_true, if_false, h]

/-- A fetch of a canonically packed record returns the stored list. -/
theorem fetch_wf (jk : Junk) (db : DB) (key : List Nat) (L : List (List Nat))
    (hget : dbGet db (normBytes key) = some (packSubkeys L))
    (hL : ∀ s ∈ L, validName s) (hn : L.length < 4294967296) :
    regdb_fetch_keys jk db key false = ⟨(L.length : Int), L, some db.seq⟩ :=
  fetch_parse jk db key _ L hget (parseSubkeys_pack L hL hn)

theorem writeBytes_length (buf bytes : List Nat) (off : Nat)
    (h : off + bytes.length ≤ buf.length) :
    (writeBytes buf off bytes).length = buf.length := by
  simp only [writeBytes, List.length_append, List.length_take, List.length_drop]
  omega

theorem writeBytes_take (buf bytes : List Nat) (off : Nat)
    (h : off + bytes.length ≤ buf.length) :
    (writeBytes buf off bytes).take (off + bytes.length) = buf.take off ++ bytes := by
  unfold writeBytes
  have hl : (buf.take off ++ bytes).length = off + bytes.length := by
    simp only [List.length_append, List.length_take]
    omega
  rw [← hl, List.take_left]

/-- When the packed data fits the initial 1024-byte buffer the packing loop
never reallocates: it appends the names contiguously after the prefix. -/
theorem storeKeysLoop_fits (junk2 : Nat → Nat) (L : List (List Nat)) :
    ∀ (buf : List Nat) (len : Nat), buf.length = 1024 →
    len + ((L.map packName).flatten).length ≤ 1024 →
    (storeKeysLoop junk2 L buf len 1024).2.1 =
        len + ((L.map packName).flatten).length ∧
    (storeKeysLoop junk2 L buf len 1024).1.take
        (len + ((L.map packName).flatten).length)
      = buf.take len ++ (L.map packName).flatten := by
  induction L with
  | nil =>
    intro buf len hb hfit
    simp [storeKeysLoop]
  | cons s L' ih =>
    intro buf len hb hfit
    simp only [List.map_cons, List.flatten_cons, List.length_append, packName,
      List.length_append, List.length_singleton] at hfit ⊢
    have hitem : s.length + 1 ≤ 1024 - len ∧ (1024 : Nat) - len ≠ 0 := by omega
    have hlen1 : ¬ 1024 < len + (s.length + 1) := by omega
    unfold storeKeysLoop
    simp only [if_neg hlen1, if_pos (And.intro hitem.2 hitem.1)]
    have hwlen : (writeBytes buf len (packName s)).length = 1024 := by
      rw [writeBytes_length]
      · exact hb
      · simp only [packName, List.length_append, List.length_singleton]
        omega
    have hrec := ih (writeBytes buf len (packName s)) (len + (s.length + 1)) hwlen
      (by omega)
    constructor
    · rw [hrec.1]; omega
    · have htk : (writeBytes buf len (packName s)).take (len + (s.length + 1))
          = buf.take len ++ packName s := by
        have := writeBytes_take buf (packName s) len (by
          simp only [packName, List.length_append, List.length_singleton]; omega)
        simpa [packName] using this
      have h2 := hrec.2
      rw [htk] at h2
      have harith : len + (s.length + 1 + ((L'.map packName).flatten).length)
          = len + (s.length + 1) + ((L'.map packName).flatten).length := by omega
      rw [harith, h2]
      simp [packName]

/-- When the packed record fits the initial buffer,
`regdb_store_keys_internal` stores exactly the canonical encoding. -/
theorem store_internal_wf (jk : Junk) (tbl : List Nat → Option (List Nat))
    (key : List Nat) (L : List (List Nat)) (h : packedLen L ≤ 1024) :
    regdb_store_keys_internal jk tbl key L
      = tblPut tbl (normBytes key) (packSubkeys L) := by
  simp only [regdb_store_keys_internal]
  have hb0 : ((List.range 1024).map jk.buf).length = 1024 := by simp
  have hb1 : (writeBytes ((List.range 1024).map jk.buf) 0 (le32 L.length)).length
      = 1024 := by
    rw [writeBytes_length]
    · exact hb0
    · rw [le32_length, hb0]; omega
  unfold packedLen at h
  have hfits := storeKeysLoop_fits jk.buf2 L _ 4 hb1 (by omega)
  rw [hfits.1]
  have htk4 : (writeBytes ((List.range 1024).map jk.buf) 0 (le32 L.length)).take 4
      = le32 L.length := by
    have := writeBytes_take ((List.range 1024).map jk.buf) (le32 L.length) 0
      (by rw [le32_length, hb0]; omega)
    simpa [le32_length] using this
  rw [hfits.2, htk4]
  rfl

/-- Stores to a different physical key leave a key's record unchanged. -/
theorem store_internal_get_other (jk : Junk) (tbl : List Nat → Option (List Nat))
    (key : List Nat) (L : List (List Nat)) (x : List Nat)
    (hx : x ≠ normBytes key) :
    regdb_store_keys_internal jk tbl key L x = tbl x := by
  unfold regdb_store_keys_internal tblPut
  simp [if_neg hx]

theorem deleteRemoved_preserve_none (key : List Nat) (ctr : List (List Nat)) :
    ∀ (old : List (List Nat)) (tbl : List Nat → Option (List Nat)) (x : List Nat),
    tbl x = none → deleteRemoved key ctr old tbl x = none := by
  intro old
  induction old with
  | nil => intro tbl x h; exact h
  | cons o rest ih =>
    intro tbl x h
    unfold deleteRemoved
    split
    · exact ih tbl x h
    · exact ih _ x (by simp [tblDel, h])

theorem deleteRemoved_other (key : List Nat) (ctr : List (List Nat)) :
    ∀ (old : List (List Nat)) (tbl : List Nat → Option (List Nat)) (x : List Nat),
    (∀ o ∈ old, x ≠ childKey key o ∧ x ≠ valChildKey key o) →
    deleteRemoved key ctr old tbl x = tbl x := by
  intro old
  induction old with
  | nil => intro tbl x _; rfl
  | cons o rest ih =>
    intro tbl x h
    unfold deleteRemoved
    split
    · exact ih tbl x (fun o' ho' => h o' (by simp [ho']))
    · rw [ih _ x (fun o' ho' => h o' (by simp [ho']))]
      have hx := h o (by simp)
      simp [tblDel, hx.1, hx.2]

theorem deleteRemoved_deleted (key : List Nat) (ctr : List (List Nat)) :
    ∀ (old : List (List Nat)) (tbl : List Nat → Option (List Nat)) (o : List Nat),
    o ∈ old → ctr.any (fun m => upEq m o) = false →
    deleteRemoved key ctr old tbl (childKey key o) = none ∧
    deleteRemoved key ctr old tbl (valChildKey key o) = none := by
  intro old
  induction old with
  | nil => intro tbl o ho _; exact absurd ho (by simp)
  | cons o' rest ih =>
    intro tbl o ho hany
    rcases List.mem_cons.mp ho with heq | hmem
    · subst heq
      unfold deleteRemoved
      rw [hany]
      simp only [Bool.false_eq_true, if_false]
      constructor
      · exact deleteRemoved_preserve_none key ctr rest _ _ (by simp [tblDel])
      · exact deleteRemoved_preserve_none key ctr rest _ _ (by simp [tblDel])
    · unfold deleteRemoved
      split
      · exact ih tbl o hmem hany
      · exact ih _ o hmem hany

theorem createStubs_other (jk : Junk) (seq : Nat) (key : List Nat) :
    ∀ (ms : List (List Nat)) (tbl : List Nat → Option (List Nat)) (x : List Nat),
    (∀ m ∈ ms, x ≠ childKey key m) →
    createStubs jk seq key ms tbl x = tbl x := by
  intro ms
  induction ms with
  | nil => intro tbl x _; rfl
  | cons m rest ih =>
    intro tbl x h
    simp only [createStubs]
    rw [ih _ x (fun m' hm' => h m' (by simp [hm']))]
    split
    · exact store_internal_get_other jk tbl (key ++ [47] ++ m) [] x (h m (by simp))
    · rfl

/-- Fast path of `regdb_store_keys`: identical non-empty lists make the call
a no-op returning success. -/
theorem store_keys_fast (jk : Junk) (db : DB) (key : List Nat)
    (ctr old : List (List Nat)) (ret : Int) (sq : Option Nat)
    (hfetch : regdb_fetch_keys jk db key false = ⟨ret, old, sq⟩)
    (hcond : ctr.length ≠ 0 ∧ old.length ≠ 0 ∧ ctr.length = old.length ∧
      ctr = old) :
    regdb_store_keys jk db key ctr = (db, true) := by
  unfold regdb_store_keys
  simp only [hfetch]
  rw [if_pos hcond]

/-- Transaction path of `regdb_store_keys`: when the fast-path comparison
fails, the resulting table is the stub pass applied after the empty-list
re-store, the deletion pass and the parent store, and the commit consumes one
sequence number. -/
theorem store_keys_txn_eval (jk : Junk) (db : DB) (key : List Nat)
    (ctr old : List (List Nat)) (ret : Int) (sq : Option Nat)
    (hfetch : regdb_fetch_keys jk db key false = ⟨ret, old, sq⟩)
    (hne : ¬ (ctr.length ≠ 0 ∧ old.length ≠ 0 ∧ ctr.length = old.length ∧
      ctr = old)) :
    regdb_store_keys jk db key ctr =
      (⟨createStubs jk db.seq key ctr
          (if ctr.length = 0 then
            regdb_store_keys_internal jk
              (deleteRemoved key ctr old
                (regdb_store_keys_internal jk db.tbl key ctr)) key []
           else
            deleteRemoved key ctr old
              (regdb_store_keys_internal jk db.tbl key ctr)),
        db.seq + 1⟩, true) := by
  unfold regdb_store_keys
  simp only [hfetch]
  rw [if_neg hne]

/-! Concrete instances used by witnesses and counterexamples. -/

/-- A concrete junk oracle (the theorems' conclusions do not depend on it). -/
def jkW : Junk := ⟨[], 0, fun _ => 7, fun _ => 9⟩

/-- The empty store at sequence number 0. -/
def dbEmpty : DB := ⟨fun _ => none, 0⟩

/-- A store holding `HKLM\SOFTWARE -> [Samba, Microsoft]` (the spec's cascade
example), together with the empty stub records `regdb_store_keys` creates
for each listed child. -/
def dbC1 : DB :=
  ⟨fun k => if k = normBytes (str "HKLM\\SOFTWARE") then
      some (packSubkeys [str "Samba", str "Microsoft"])
    else if k = str "HKLM/SOFTWARE/SAMBA" then some (packSubkeys [])
    else if k = str "HKLM/SOFTWARE/MICROSOFT" then some (packSubkeys [])
    else none, 0⟩

set_option maxRecDepth 200000

/-- Core of the cascade: a removed child's subkey record and value record are
both gone after the store. -/
theorem store_keys_removes_child (jk : Junk) (db : DB) (p : List Nat)
    (L old : List (List Nat)) (name : List Nat)
    (hstored : dbGet db (normBytes p) = some (packSubkeys old))
    (hold : ∀ s ∈ old, validName s) (holdlen : old.length < 4294967296)
    (hL : ∀ s ∈ L, validName s)
    (hname : name ∈ old) (habsent : ∀ m ∈ L, upEq m name = false) :
    dbGet (regdb_store_keys jk db p L).1 (childKey p name) = none ∧
    dbGet (regdb_store_keys jk db p L).1 (valChildKey p name) = none := by
  have hvname : validName name := hold name hname
  have hfetch := fetch_wf jk db p old hstored hold holdlen
  have hne : ¬ (L.length ≠ 0 ∧ old.length ≠ 0 ∧ L.length = old.length ∧
      L = old) := by
    rintro ⟨-, -, -, rfl⟩
    have hc := habsent name hname
    rw [upEq_refl name] at hc
    exact absurd hc (by simp)
  have heval := store_keys_txn_eval jk db p L old _ _ hfetch hne
  have hany : L.any (fun m => upEq m name) = false := by
    rw [List.any_eq_false]
    intro m hm
    simp [habsent m hm]
  have hstub_ck : ∀ m ∈ L, childKey p name ≠ childKey p m := by
    intro m hm heq
    rw [childKey_eq, childKey_eq] at heq
    have h2 := List.append_cancel_left heq
    have h3 : normBytes name = normBytes m := by injection h2
    have h4 := (upEq_iff_norm m name (hL m hm) hvname).mpr h3.symm
    rw [habsent m hm] at h4
    exact absurd h4 (by simp)
  have hstub_vk : ∀ m ∈ L, valChildKey p name ≠ childKey p m := by
    intro m hm heq
    exact childKey_ne_valChild p m name (hL m hm) hvname heq.symm
  have hck : dbGet (regdb_store_keys jk db p L).1 (childKey p name) = none := by
    rw [heval]
    show createStubs jk db.seq p L _ (childKey p name) = none
    rw [createStubs_other jk db.seq p L _ _ hstub_ck]
    split
    · rw [store_internal_get_other _ _ _ _ _ (childKey_ne_parent p name)]
      exact (deleteRemoved_deleted p L old _ name hname hany).1
    · exact (deleteRemoved_deleted p L old _ name hname hany).1
  have hvk : dbGet (regdb_store_keys jk db p L).1 (valChildKey p name) = none := by
    rw [heval]
    show createStubs jk db.seq p L _ (valChildKey p name) = none
    rw [createStubs_other jk db.seq p L _ _ hstub_vk]
    split
    · rw [store_internal_get_other _ _ _ _ _ (valChildKey_ne_parent p name)]
      exact (deleteRemoved_deleted p L old _ name hname hany).2
    · exact (deleteRemoved_deleted p L old _ name hname hany).2
  exact ⟨hck, hvk⟩

/-- C1: for every `store_subkeys(path, new_names)` in which the stored list
differs from `new_names` (here: the stored record decodes to `old`, `name`
occurs in `old`, and no name of the new list equals `name` even
case-insensitively — `regsubkey_ctr_key_exists` compares with `strequal`),
the operation deletes that child's SubkeyRecord and its ValueRecord (the
modelled store treats deleting a missing ValueRecord as success), so a
subsequent `fetch_subkeys` of the child path returns NotFound (-1). -/
theorem c1_store_subkeys_cascade_delete (jk : Junk) (db : DB) (p : List Nat)
    (L old : List (List Nat)) (name : List Nat)
    (hstored : dbGet db (normBytes p) = some (packSubkeys old))
    (hold : ∀ s ∈ old, validName s) (holdlen : old.length < 4294967296)
    (hL : ∀ s ∈ L, validName s)
    (hname : name ∈ old) (habsent : ∀ m ∈ L, upEq m name = false) :
    dbGet (regdb_store_keys jk db p L).1 (childKey p name) = none ∧
    dbGet (regdb_store_keys jk db p L).1 (valChildKey p name) = none ∧
    regdb_fetch_keys jk (regdb_store_keys jk db p L).1 (p ++ [92] ++ name) false
      = ⟨-1, [], some (regdb_store_keys jk db p L).1.seq⟩ := by
  obtain ⟨hck, hvk⟩ := store_keys_removes_child jk db p L old name hstored hold
    holdlen hL hname habsent
  refine ⟨hck, hvk, ?_⟩
  have hnorm : normBytes (p ++ [92] ++ name) = childKey p name := by
    rw [childKey_eq, normBytes_append, normBytes_append, normBytes_sep92]
    simp
  apply fetch_absent
  rw [hnorm]
  exact hck

/-- Witness for C1: the spec's own example, `HKLM\SOFTWARE` holding
`[Samba, Microsoft]`, re-stored as `[Microsoft]`; fetching
`HKLM\SOFTWARE\Samba` afterwards yields NotFound. -/
theorem c1_store_subkeys_cascade_delete_witness :
    (str "Samba") ∈ [str "Samba", str "Microsoft"] ∧
    (∀ m ∈ [str "Microsoft"], upEq m (str "Samba") = false) ∧
    regdb_fetch_keys jkW
      (regdb_store_keys jkW dbC1 (str "HKLM\\SOFTWARE") [str "Microsoft"]).1
      (str "HKLM\\SOFTWARE" ++ [92] ++ str "Samba") false
      = ⟨-1, [],
        some (regdb_store_keys jkW dbC1 (str "HKLM\\SOFTWARE")
          [str "Microsoft"]).1.seq⟩ :=
  ⟨by decide, by decide,
    (c1_store_subkeys_cascade_delete jkW dbC1 (str "HKLM\\SOFTWARE")
      [str "Microsoft"] [str "Samba", str "Microsoft"] (str "Samba")
      (by decide) (by decide) (by decide) (by decide) (by decide)
      (by decide)).2.2⟩

/-- After `regdb_store_keys` on a list that packs into the initial buffer,
the parent record holds a payload that decodes to exactly that list (whether
the fast path or the transaction path was taken), provided the previous
parent record was absent or cleanly decodable. -/
theorem store_keys_stores (jk : Junk) (db : DB) (p : List Nat)
    (L : List (List Nat)) (hL : ∀ s ∈ L, validName s)
    (hfit : packedLen L ≤ 1024) (hn : L.length < 4294967296)
    (hwf : dbGet db (normBytes p) = none ∨
      ∃ payload M, dbGet db (normBytes p) = some payload ∧
        parseSubkeys payload = some M) :
    ∃ payload, dbGet (regdb_store_keys jk db p L).1 (normBytes p) = some payload ∧
      parseSubkeys payload = some L := by
  have hstub : ∀ m ∈ L, normBytes p ≠ childKey p m :=
    fun m _ => (childKey_ne_parent p m).symm
  have hempty : packedLen ([] : List (List Nat)) ≤ 1024 := by
    simp [packedLen]
  rcases hwf with habsent | ⟨payload, M, hget, hparse⟩
  · have hfetch := fetch_absent jk db p habsent
    have hne : ¬ (L.length ≠ 0 ∧ ([] : List (List Nat)).length ≠ 0 ∧
        L.length = ([] : List (List Nat)).length ∧ L = []) := by
      rintro ⟨-, h2, -, -⟩
      simp at h2
    have heval := store_keys_txn_eval jk db p L [] _ _ hfetch hne
    refine ⟨packSubkeys L, ?_, parseSubkeys_pack L hL hn⟩
    rw [heval]
    show createStubs jk db.seq p L _ (normBytes p) = some (packSubkeys L)
    rw [createStubs_other jk db.seq p L _ _ hstub]
    split
    · rename_i hzero
      have hLnil : L = [] := List.length_eq_zero.mp (by omega)
      rw [store_internal_wf jk _ p [] hempty]
      rw [hLnil]
      simp [tblPut]
    · show deleteRemoved p L [] _ (normBytes p) = _
      show regdb_store_keys_internal jk db.tbl p L (normBytes p) = _
      rw [store_internal_wf jk db.tbl p L hfit]
      simp [tblPut]
  · have hfetch := fetch_parse jk db p payload M hget hparse
    by_cases hc : (L.length ≠ 0 ∧ M.length ≠ 0 ∧ L.length = M.length ∧ L = M)
    · rw [store_keys_fast jk db p L M _ _ hfetch hc]
      exact ⟨payload, hget, by rw [hparse, hc.2.2.2]⟩
    · have heval := store_keys_txn_eval jk db p L M _ _ hfetch hc
      refine ⟨packSubkeys L, ?_, parseSubkeys_pack L hL hn⟩
      rw [heval]
      show createStubs jk db.seq p L _ (normBytes p) = some (packSubkeys L)
      rw [createStubs_other jk db.seq p L _ _ hstub]
      have hdel : deleteRemoved p L M
          (regdb_store_keys_internal jk db.tbl p L) (normBytes p)
          = regdb_store_keys_internal jk db.tbl p L (normBytes p) :=
        deleteRemoved_other p L M _ _ (fun o _ =>
          ⟨(childKey_ne_parent p o).symm, (valChildKey_ne_parent p o).symm⟩)
      split
      · rename_i hzero
        have hLnil : L = [] := List.length_eq_zero.mp (by omega)
        rw [store_internal_wf jk _ p [] hempty]
        rw [hLnil]
        simp [tblPut]
      · rw [hdel, store_internal_wf jk db.tbl p L hfit]
        simp [tblPut]

/-- C2 (amended): writing a subkey list identical to the currently stored one
is a no-op — provided the list is non-empty, since the fast-path comparison
at lines 457-458 requires both the new and the old list to be non-empty —
and `store_subkeys(p, L)` twice in a row leaves the store (in particular
`current_sequence()`) unchanged after the second call, provided L is
non-empty, its names are well formed, its encoding fits the initial
1024-byte pack buffer, and the pre-existing parent record (if any) decodes
cleanly.  The empty list is excluded: see the counterexample. -/
theorem c2_store_subkeys_noop_nonempty :
    (∀ (jk : Junk) (db : DB) (p : List Nat) (payload : List Nat)
      (L : List (List Nat)), L ≠ [] →
      dbGet db (normBytes p) = some payload → parseSubkeys payload = some L →
      regdb_store_keys jk db p L = (db, true)) ∧
    (∀ (jk jk2 : Junk) (db : DB) (p : List Nat) (L : List (List Nat)),
      L ≠ [] → (∀ s ∈ L, validName s) → packedLen L ≤ 1024 →
      L.length < 4294967296 →
      (dbGet db (normBytes p) = none ∨
        ∃ payload M, dbGet db (normBytes p) = some payload ∧
          parseSubkeys payload = some M) →
      regdb_store_keys jk2 (regdb_store_keys jk db p L).1 p L
        = ((regdb_store_keys jk db p L).1, true)) := by
  have part1 : ∀ (jk : Junk) (db : DB) (p : List Nat) (payload : List Nat)
      (L : List (List Nat)), L ≠ [] →
      dbGet db (normBytes p) = some payload → parseSubkeys payload = some L →
      regdb_store_keys jk db p L = (db, true) := by
    intro jk db p payload L hni hget hparse
    have hfetch := fetch_parse jk db p payload L hget hparse
    exact store_keys_fast jk db p L L _ _ hfetch
      ⟨by simpa using hni, by simpa using hni, rfl, rfl⟩
  refine ⟨part1, ?_⟩
  intro jk jk2 db p L hni hL hfit hn hwf
  obtain ⟨payload, hget, hparse⟩ := store_keys_stores jk db p L hL hfit hn hwf
  exact part1 jk2 _ p payload L hni hget hparse

/-- Counterexample to C2 as stated: with the empty list the fast-path
comparison never fires (it requires both lists non-empty), so storing the
empty subkey list twice in a row opens a transaction and consumes a sequence
number both times — `current_sequence()` changes after the second call. -/
theorem c2_counterexample_empty_list :
    (regdb_store_keys jkW
        (regdb_store_keys jkW dbEmpty (str "A") []).1 (str "A") []).1.seq
      ≠ (regdb_store_keys jkW dbEmpty (str "A") []).1.seq := by decide

/-- A store holding `A -> [B]` at sequence number 5. -/
def dbC2 : DB :=
  ⟨fun k => if k = normBytes (str "A") then some (packSubkeys [str "B"])
    else none, 5⟩

/-- Witness for C2 (amended): re-storing the already-stored non-empty list
`[B]` under `A` is a no-op. -/
theorem c2_store_subkeys_noop_nonempty_witness :
    ([str "B"] ≠ ([] : List (List Nat))) ∧
    dbGet dbC2 (normBytes (str "A")) = some (packSubkeys [str "B"]) ∧
    regdb_store_keys jkW dbC2 (str "A") [str "B"] = (dbC2, true) :=
  ⟨by decide, by decide,
    c2_store_subkeys_noop_nonempty.1 jkW dbC2 (str "A")
      (packSubkeys [str "B"]) [str "B"] (by decide) (by decide) (by decide)⟩

/-- Frame property of `regdb_store_keys`: any physical key that is not the
parent record, not a subkey/value record of an old child and not a stub
record of a new child is untouched by the store. -/
theorem store_keys_frame (jk : Junk) (db : DB) (p : List Nat)
    (L old : List (List Nat)) (x : List Nat)
    (hstored : dbGet db (normBytes p) = some (packSubkeys old))
    (hold : ∀ s ∈ old, validName s) (holdlen : old.length < 4294967296)
    (hxp : x ≠ normBytes p)
    (hxc : ∀ o ∈ old, x ≠ childKey p o ∧ x ≠ valChildKey p o)
    (hxs : ∀ m ∈ L, x ≠ childKey p m) :
    dbGet (regdb_store_keys jk db p L).1 x = dbGet db x := by
  have hfetch := fetch_wf jk db p old hstored hold holdlen
  by_cases hc : (L.length ≠ 0 ∧ old.length ≠ 0 ∧ L.length = old.length ∧
      L = old)
  · rw [store_keys_fast jk db p L old _ _ hfetch hc]
  · have heval := store_keys_txn_eval jk db p L old _ _ hfetch hc
    rw [heval]
    show createStubs jk db.seq p L _ x = dbGet db x
    rw [createStubs_other jk db.seq p L _ _ hxs]
    split
    · rw [store_internal_get_other _ _ _ _ _ hxp,
        deleteRemoved_other p L old _ x hxc,
        store_internal_get_other _ _ _ _ _ hxp]
      rfl
    · rw [deleteRemoved_other p L old _ x hxc,
        store_internal_get_other _ _ _ _ _ hxp]
      rfl

/-- A security-descriptor key never coincides with a value-record key. -/
theorem secNS_key_ne_valNS_key (A B : List Nat) :
    secdescNS ++ 47 :: A ≠ valueNS ++ 47 :: B := by
  intro h
  have h5 := congrArg (List.take 5) h
  rw [List.take_append_of_le_length (by decide),
    List.take_append_of_le_length (by decide)] at h5
  exact absurd h5 (by decide)

/-- A store holding the chain `A -> [B]`, `A/B -> [C]`, `A/B/C -> []`,
together with a security descriptor for `A\B` (payload `[9, 9]`). -/
def dbC3 : DB :=
  ⟨fun k =>
    if k = str "A" then some (packSubkeys [str "B"])
    else if k = str "A/B" then some (packSubkeys [str "C"])
    else if k = str "A/B/C" then some (packSubkeys [])
    else if k = str "REG_SECDESC/A/B" then some [9, 9]
    else none, 0⟩

/-- Counterexample to C3 as stated: removing `B` from `A`'s subkey list
deletes only `B`'s own SubkeyRecord (and ValueRecord); the grandchild record
`A/B/C` and the SecurityDescriptorRecord of `A\B` both survive, although the
claim requires the SecurityDescriptorRecord to be removed and the removal to
recurse to every descendant. -/
theorem c3_counterexample_no_recursion :
    dbGet (regdb_store_keys jkW dbC3 (str "A") []).1 (str "A/B") = none ∧
    dbGet (regdb_store_keys jkW dbC3 (str "A") []).1 (str "A/B/C")
      = some (packSubkeys []) ∧
    dbGet (regdb_store_keys jkW dbC3 (str "A") []).1 (str "REG_SECDESC/A/B")
      = some [9, 9] := by decide

/-- C3 (amended): when a child is removed from its parent's subkey list, the
cascade is shallow: the removed child's own SubkeyRecord and ValueRecord are
deleted, but its SecurityDescriptorRecord is left in place and nothing is
applied recursively — any record of a descendant of the removed child is
untouched.  (The prefix hypotheses only exclude parent paths that themselves
spell the internal `REG_VALUES`/`REG_SECDESC` namespace tags.) -/
theorem c3_cascade_is_shallow (jk : Junk) (db : DB) (p : List Nat)
    (L old : List (List Nat)) (name g : List Nat)
    (hstored : dbGet db (normBytes p) = some (packSubkeys old))
    (hold : ∀ s ∈ old, validName s) (holdlen : old.length < 4294967296)
    (hL : ∀ s ∈ L, validName s)
    (hname : name ∈ old) (habsent : ∀ m ∈ L, upEq m name = false)
    (hpreV : (normBytes p).take valueNS.length ≠ valueNS)
    (hpreS : (normBytes p).take secdescNS.length ≠ secdescNS) :
    dbGet (regdb_store_keys jk db p L).1 (childKey p name) = none ∧
    dbGet (regdb_store_keys jk db p L).1 (valChildKey p name) = none ∧
    dbGet (regdb_store_keys jk db p L).1 (secKeyOf (p ++ [92] ++ name))
      = dbGet db (secKeyOf (p ++ [92] ++ name)) ∧
    dbGet (regdb_store_keys jk db p L).1 (childKey (p ++ [92] ++ name) g)
      = dbGet db (childKey (p ++ [92] ++ name) g) := by
  have hvname : validName name := hold name hname
  obtain ⟨hck, hvk⟩ := store_keys_removes_child jk db p L old name hstored hold
    holdlen hL hname habsent
  have hsec : secKeyOf (p ++ [92] ++ name)
      = secdescNS ++ 47 :: (normBytes p ++ 47 :: normBytes name) := by
    rw [secKeyOf_eq, normBytes_append, normBytes_append, normBytes_sep92]
    simp
  have hdesc : childKey (p ++ [92] ++ name) g
      = normBytes p ++ 47 :: (normBytes name ++ 47 :: normBytes g) := by
    rw [childKey_eq, normBytes_append, normBytes_append, normBytes_sep92]
    simp
  refine ⟨hck, hvk, ?_, ?_⟩
  · apply store_keys_frame jk db p L old _ hstored hold holdlen
    · rw [hsec]
      intro h
      have := congrArg List.length h
      simp only [List.length_append, List.length_cons, normBytes_length] at this
      have h11 : secdescNS.length = 11 := by decide
      omega
    · intro o _
      rw [hsec, childKey_eq, valChildKey_eq]
      exact ⟨ns_key_ne secdescNS (normBytes p) _ _ no47_secdescNS hpreS,
        secNS_key_ne_valNS_key _ _⟩
    · intro m _
      rw [hsec, childKey_eq]
      exact ns_key_ne secdescNS (normBytes p) _ _ no47_secdescNS hpreS
  · apply store_keys_frame jk db p L old _ hstored hold holdlen
    · rw [hdesc]
      intro h
      have := congrArg List.length h
      simp only [List.length_append, List.length_cons, normBytes_length] at this
      omega
    · intro o ho
      constructor
      · rw [hdesc, childKey_eq]
        intro h
        have h2 := List.append_cancel_left h
        have h3 : normBytes name ++ 47 :: normBytes g = normBytes o := by
          injection h2
        have hno47 : (47 : Nat) ∉ normBytes o :=
          List.count_eq_zero.mp (normBytes_valid_no47 o (hold o ho))
        apply hno47
        rw [← h3]
        simp
      · rw [hdesc, valChildKey_eq]
        exact (ns_key_ne valueNS (normBytes p) _ _ no47_valueNS hpreV).symm
    · intro m hm
      rw [hdesc, childKey_eq]
      intro h
      have h2 := List.append_cancel_left h
      have h3 : normBytes name ++ 47 :: normBytes g = normBytes m := by
        injection h2
      have hno47 : (47 : Nat) ∉ normBytes m :=
        List.count_eq_zero.mp (normBytes_valid_no47 m (hL m hm))
      apply hno47
      rw [← h3]
      simp

/-- Witness for C3 (amended): in the concrete chain store, removing `B` from
`A` leaves the grandchild record `A\B\C` and the descriptor of `A\B`
untouched while `B`'s own records are gone. -/
theorem c3_cascade_is_shallow_witness :
    (str "B") ∈ [str "B"] ∧
    dbGet (regdb_store_keys jkW dbC3 (str "A") []).1
        (childKey (str "A") (str "B")) = none ∧
    dbGet (regdb_store_keys jkW dbC3 (str "A") []).1
        (childKey (str "A" ++ [92] ++ str "B") (str "C"))
      = dbGet dbC3 (childKey (str "A" ++ [92] ++ str "B") (str "C")) :=
  ⟨by decide,
    (c3_cascade_is_shallow jkW dbC3 (str "A") [] [str "B"] (str "B") (str "C")
      (by decide) (by decide) (by decide) (by decide) (by decide) (by decide)
      (by decide) (by decide)).1,
    (c3_cascade_is_shallow jkW dbC3 (str "A") [] [str "B"] (str "B") (str "C")
      (by decide) (by decide) (by decide) (by decide) (by decide) (by decide)
      (by decide) (by decide)).2.2.2⟩

/-- Five subkey names of 250 bytes each: legal fstring-sized names whose
packed record (4 + 5 * 251 = 1259 bytes) exceeds the initial 1024-byte pack
buffer of `regdb_store_keys_internal`. -/
def bigNames : List (List Nat) := List.replicate 5 (List.replicate 250 65)

/-- C4 evaluated at the failing input (code bug): the names are well formed
and de-duplicated is irrelevant here (they are equal, but the stored record
is already corrupt regardless: the bug is in packing).  The canonical
encoding of `bigNames` is 1259 bytes, yet the overflow handling of
`regdb_store_keys_internal` (re-packing the overflowing name at the stale
offset `len` and resetting `len` to that single pack's length, lines
405-415) stores a 251-byte record; the subsequent `fetch_subkeys` cannot and
does not return the stored list. -/
theorem c4_overflow_corrupts_roundtrip :
    packedLen bigNames = 1259 ∧
    (dbGet (regdb_store_keys jkW dbEmpty (str "BIG") bigNames).1
        (normBytes (str "BIG"))).map List.length = some 251 ∧
    (regdb_fetch_keys jkW
        (regdb_store_keys jkW dbEmpty (str "BIG") bigNames).1
        (str "BIG") false).ret = 5 ∧
    (regdb_fetch_keys jkW
        (regdb_store_keys jkW dbEmpty (str "BIG") bigNames).1
        (str "BIG") false).subkeys ≠ bigNames := by
  refine ⟨by decide, by decide, by decide, ?_⟩
  intro h
  have h2 := congrArg (fun l => (List.map List.length l).take 2) h
  revert h2
  decide

/-- The round trip does hold below the buffer limit: this is the behaviour
the spec describes, witnessing that the failing input above is the bug and
not the rule.  (Not a claim theorem; it supports the code-bug analysis.) -/
theorem store_fetch_roundtrip_small (jk : Junk) (db : DB) (p : List Nat)
    (L : List (List Nat)) (hL : ∀ s ∈ L, validName s)
    (hfit : packedLen L ≤ 1024) (hn : L.length < 4294967296)
    (hwf : dbGet db (normBytes p) = none ∨
      ∃ payload M, dbGet db (normBytes p) = some payload ∧
        parseSubkeys payload = some M) :
    (regdb_fetch_keys jk (regdb_store_keys jk db p L).1 p false).subkeys
      = L := by
  obtain ⟨payload, hget, hparse⟩ := store_keys_stores jk db p L hL hfit hn hwf
  rw [fetch_parse jk _ p payload L hget hparse]

/-- A store whose value record for `K` is the corrupt buffer `[1,0,0,0]`:
count 1, no entry data. -/
def dbC5 : DB :=
  ⟨fun k => if k = valKeyOf (str "K") then some [1, 0, 0, 0] else none, 0⟩

/-- Counterexample to C5 as stated: a stored value buffer whose count field
promises one entry but holds no entry bytes does not produce any Corrupt
error — `regdb_unpack_values` adds the failed unpack's -1 to its offset and
returns normally with the empty list (return value 3), and a
`regdb_fetch_values` of such a record returns 0, indistinguishable from an
intact empty value list. -/
theorem c5_counterexample_silent_truncation :
    regdb_unpack_values [1, 0, 0, 0] = (3, []) ∧
    (regdb_fetch_values dbC5 (str "K") false).ret = 0 ∧
    (regdb_fetch_values dbC5 (str "K") false).vals = [] := by decide

/-- C5 (amended): decoding failures are silently swallowed, not reported: on
a buffer advertising `n` entries (1 ≤ n ≤ 4) with no entry data,
`regdb_unpack_values` returns normally with the empty value list (and the
internal offset `4 - n`, each failed tuple having contributed -1); no
Corrupt outcome exists in the decode path, and `regdb_fetch_keys` likewise
loops past failed fields collecting stale name buffers. -/
theorem c5_unpack_values_silently_truncates (n : Nat) (h1 : 1 ≤ n)
    (h4 : n ≤ 4) :
    regdb_unpack_values (le32 n) = ((4 : Int) - n, []) := by
  have hcases : n = 1 ∨ n = 2 ∨ n = 3 ∨ n = 4 := by omega
  rcases hcases with rfl | rfl | rfl | rfl <;> decide

/-- Witness for C5 (amended) at count 2. -/
theorem c5_unpack_values_silently_truncates_witness :
    1 ≤ 2 ∧ 2 ≤ 4 ∧ regdb_unpack_values (le32 2) = ((4 : Int) - 2, []) :=
  ⟨by decide, by decide,
    c5_unpack_values_silently_truncates 2 (by decide) (by decide)⟩

/-- Counterexample to C6 as stated: for `fetch_subkeys` a read-lock timeout
and a missing record are distinguishable — the timeout path returns 0 (the
shape of a successful fetch of an empty list, without stamping the sequence
number), while a missing record returns -1 (NotFound, sequence number
stamped). -/
theorem c6_counterexample_timeout_vs_notfound :
    (regdb_fetch_keys jkW dbEmpty (str "A") true).ret = 0 ∧
    (regdb_fetch_keys jkW dbEmpty (str "A") false).ret = -1 ∧
    regdb_fetch_keys jkW dbEmpty (str "A") true
      ≠ regdb_fetch_keys jkW dbEmpty (str "A") false := by decide

/-- C6 (amended): the timeout-equals-NotFound conflation holds only for
`fetch_values`, and only for the return value and result list (the timeout
path skips the sequence-number stamp): both a timeout and a missing value
record yield return 0 with no entries.  For `fetch_subkeys` the two outcomes
differ: a timeout returns 0 (reading as "zero subkeys") while a missing
record returns -1 (NotFound). -/
theorem c6_timeout_behaviour :
    (∀ (db : DB) (p : List Nat),
      regdb_fetch_values db p true = ⟨0, [], none⟩) ∧
    (∀ (db : DB) (p : List Nat), dbGet db (valKeyOf p) = none →
      regdb_fetch_values db p false = ⟨0, [], some db.seq⟩) ∧
    (∀ (jk : Junk) (db : DB) (p : List Nat),
      regdb_fetch_keys jk db p true = ⟨0, [], none⟩) ∧
    (∀ (jk : Junk) (db : DB) (p : List Nat), dbGet db (normBytes p) = none →
      regdb_fetch_keys jk db p false = ⟨-1, [], some db.seq⟩) := by
  refine ⟨fun db p => rfl, ?_, fun jk db p => rfl, fun jk db p h => fetch_absent jk db p h⟩
  intro db p h
  unfold regdb_fetch_values
  simp only [Bool.false_eq_true, if_false, h]

/-- Witness for C6 (amended): the empty store, path `K`. -/
theorem c6_timeout_behaviour_witness :
    dbGet dbEmpty (valKeyOf (str "K")) = none ∧
    regdb_fetch_values dbEmpty (str "K") false = ⟨0, [], some 0⟩ :=
  ⟨rfl, c6_timeout_behaviour.2.1 dbEmpty (str "K") rfl⟩

/-- The store right after seeding the `ErrorControl` default into an empty
store. -/
def dbSeeded : DB := seedValue dbEmpty errorControlEntry

/-- The seeded store after a caller overwrites `ErrorControl` to 2. -/
def dbOverridden : DB :=
  (regdb_store_values dbSeeded errorControlEntry.path
    [⟨str "ErrorControl", regDwordTag, le32 2⟩]).1

/-- C7: the seeder adds a built-in value only when no value of that name is
already present at the path (`regval_ctr_key_exists` guard, line 202); in
particular, after the caller has overwritten the seeded `ErrorControl`
default from 1 to 2, re-running the seeding round leaves the store — and the
caller's value 2 — unchanged. -/
theorem c7_seeder_preserves_existing :
    (∀ (db : DB) (e : BuiltinVal),
      regval_ctr_key_exists (regdb_fetch_values db e.path false).vals e.vname
        = true → seedValue db e = db) ∧
    seedValue dbOverridden errorControlEntry = dbOverridden ∧
    (regdb_fetch_values dbOverridden errorControlEntry.path false).vals
      = [⟨str "ErrorControl", regDwordTag, le32 2⟩] := by
  have part1 : ∀ (db : DB) (e : BuiltinVal),
      regval_ctr_key_exists (regdb_fetch_values db e.path false).vals e.vname
        = true → seedValue db e = db := by
    intro db e h
    simp only [seedValue]
    rw [h]
    simp
  exact ⟨part1, part1 dbOverridden errorControlEntry (by decide), by decide⟩

/-- Witness for C7: the freshly seeded store already holds `ErrorControl`,
so a second seeding round is the identity. -/
theorem c7_seeder_preserves_existing_witness :
    regval_ctr_key_exists
        (regdb_fetch_values dbSeeded errorControlEntry.path false).vals
        errorControlEntry.vname = true ∧
    seedValue dbSeeded errorControlEntry = dbSeeded :=
  ⟨by decide,
    c7_seeder_preserves_existing.1 dbSeeded errorControlEntry (by decide)⟩

/-- C8: `set_secdesc(p, null)` deletes the SecurityDescriptorRecord and
returns success unconditionally — also when no record exists, since the
modelled store contract treats deleting an absent key as success (spec
section 6) — and after `set_secdesc(p, D)` followed by `set_secdesc(p,
null)`, `get_secdesc(p)` returns NotFound (`WERR_BADFILE`). -/
theorem c8_set_secdesc_null_deletes :
    (∀ (db : DB) (p : List Nat),
      (regdb_set_secdesc db p none).2 = WErr.ok ∧
      regdb_get_secdesc (regdb_set_secdesc db p none).1 p
        = (WErr.badfile, none)) ∧
    (∀ (db : DB) (p D : List Nat),
      regdb_get_secdesc
          ((regdb_set_secdesc ((regdb_set_secdesc db p (some D)).1) p none).1)
          p
        = (WErr.badfile, none)) := by
  constructor
  · intro db p
    refine ⟨rfl, ?_⟩
    unfold regdb_get_secdesc regdb_set_secdesc
    simp [dbGet, tblDel]
  · intro db p D
    unfold regdb_get_secdesc regdb_set_secdesc
    simp [dbGet, tblDel]

/-- Validity of one value entry for the byte codec: the name has no NUL and
fits an fstring, and type and length fit 32 bits. -/
def validVal (v : RegVal) : Prop :=
  (∀ b ∈ v.name, b ≠ 0) ∧ v.name.length ≤ 255 ∧ v.vtype < 4294967296 ∧
    v.data.length < 4294967296

instance validVal.dec (v : RegVal) : Decidable (validVal v) := by
  unfold validVal; infer_instance

theorem drop_packed (s t : List Nat) : (s ++ 0 :: t).drop (s.length + 1) = t := by
  have hsplit : s ++ 0 :: t = (s ++ [0]) ++ t := by simp
  have hl : (s ++ [0]).length = s.length + 1 := by simp
  rw [hsplit, ← hl, List.drop_left]

theorem drop4_le32 (n : Nat) (t : List Nat) : (le32 n ++ t).drop 4 = t := by
  rw [← le32_length n, List.drop_left]

/-- One "fdB" unpack of a packed entry with a zero-length payload: succeeds,
with a NULL data pointer. -/
theorem unpack_fdB_packed_zero (v : RegVal) (rest : List Nat)
    (hv : validVal v) (hz : v.data = []) :
    unpack_fdB (packVal v ++ rest)
      = (((v.name.length + 1 + 8 : Nat) : Int), v.name, v.vtype, 0, none) := by
  obtain ⟨h0, hfs, hty, hdl⟩ := hv
  have hshape : packVal v ++ rest
      = v.name ++ 0 :: (le32 v.vtype ++ (le32 v.data.length ++ (v.data ++ rest))) := by
    simp [packVal, packName, List.append_assoc]
  have hdc1 := drop_packed v.name
    (le32 v.vtype ++ (le32 v.data.length ++ (v.data ++ rest)))
  have hd4 : (v.name ++ 0 :: (le32 v.vtype ++ (le32 v.data.length ++
      (v.data ++ rest)))).drop (v.name.length + 1 + 4)
      = le32 v.data.length ++ (v.data ++ rest) := by
    rw [← List.drop_drop, hdc1, drop4_le32]
  rw [hshape]
  simp only [unpack_fdB, unpack_f_packed v.name _ h0 hfs, hdc1, hd4,
    unpack_d_le32 v.vtype _ hty, unpack_d_le32 v.data.length _ hdl]
  rw [if_pos (by simp [hz])]

/-- One "fdB" unpack of a packed entry with a non-empty payload: succeeds
with the payload bytes. -/
theorem unpack_fdB_packed_pos (v : RegVal) (rest : List Nat)
    (hv : validVal v) (hz : v.data ≠ []) :
    unpack_fdB (packVal v ++ rest)
      = (((v.name.length + 1 + 8 + v.data.length : Nat) : Int), v.name,
        v.vtype, v.data.length, some v.data) := by
  obtain ⟨h0, hfs, hty, hdl⟩ := hv
  have hshape : packVal v ++ rest
      = v.name ++ 0 :: (le32 v.vtype ++ (le32 v.data.length ++ (v.data ++ rest))) := by
    simp [packVal, packName, List.append_assoc]
  have hdc1 := drop_packed v.name
    (le32 v.vtype ++ (le32 v.data.length ++ (v.data ++ rest)))
  have hd4 : (v.name ++ 0 :: (le32 v.vtype ++ (le32 v.data.length ++
      (v.data ++ rest)))).drop (v.name.length + 1 + 4)
      = le32 v.data.length ++ (v.data ++ rest) := by
    rw [← List.drop_drop, hdc1, drop4_le32]
  have hd8 : (v.name ++ 0 :: (le32 v.vtype ++ (le32 v.data.length ++
      (v.data ++ rest)))).drop (v.name.length + 1 + 8)
      = v.data ++ rest := by
    rw [show v.name.length + 1 + 8 = v.name.length + 1 + 4 + 4 from by omega,
      ← List.drop_drop, hd4, drop4_le32]
  have hzlen : v.data.length ≠ 0 := by
    intro h
    exact hz (List.length_eq_zero.mp h)
  rw [hshape]
  simp only [unpack_fdB, unpack_f_packed v.name _ h0 hfs, hdc1, hd4, hd8,
    unpack_d_le32 v.vtype _ hty, unpack_d_le32 v.data.length _ hdl]
  rw [if_neg hzlen, if_neg (by simp [List.length_append]),
    List.take_left v.data rest]

/-- The value decode loop on a canonically packed list returns exactly the
entries passing the guard: non-empty name and non-empty payload. -/
theorem unpackValuesLoop_packed (vals : List RegVal)
    (hv : ∀ v ∈ vals, validVal v) :
    ∀ (buf : List Nat) (len : Nat) (acc : List RegVal) (rest : List Nat),
    buf.drop len = (vals.map packVal).flatten ++ rest →
    (unpackValuesLoop vals.length buf (len : Int) acc).2
      = acc.reverse ++
        vals.filter (fun v => !v.name.isEmpty && !v.data.isEmpty) := by
  induction vals with
  | nil =>
    intro buf len acc rest _
    simp [unpackValuesLoop]
  | cons v vs ih =>
    intro buf len acc rest hdrop
    have hvv : validVal v := hv v (by simp)
    have hdrop1 : buf.drop len = packVal v ++ ((vs.map packVal).flatten ++ rest) := by
      rw [hdrop]
      simp [List.append_assoc]
    have htoNat : ((len : Int)).toNat = len := Int.toNat_ofNat len
    by_cases hz : v.data = []
    · have hfdB := unpack_fdB_packed_zero v ((vs.map packVal).flatten ++ rest)
        hvv hz
      rw [← hdrop1] at hfdB
      have hlen2 : (len : Int) + ((v.name.length + 1 + 8 : Nat) : Int)
          = ((len + (v.name.length + 1 + 8) : Nat) : Int) := by push_cast; ring
      have hdropnext : buf.drop (len + (v.name.length + 1 + 8))
          = (vs.map packVal).flatten ++ rest := by
        rw [← List.drop_drop, hdrop1]
        have hplen : (packVal v).length = v.name.length + 1 + 8 := by
          simp [packVal, packName, le32, hz]
        rw [show v.name.length + 1 + 8 = (packVal v).length from hplen.symm,
          List.drop_left]
      show (unpackValuesLoop (vs.length + 1) buf (len : Int) acc).2 = _
      unfold unpackValuesLoop
      rw [htoNat, hfdB]
      show (unpackValuesLoop vs.length buf
        ((len : Int) + ((v.name.length + 1 + 8 : Nat) : Int)) acc).2 = _
      rw [hlen2]
      rw [ih (fun x hx => hv x (by simp [hx])) buf _ acc _ hdropnext]
      simp [List.filter_cons, hz]
    · have hfdB := unpack_fdB_packed_pos v ((vs.map packVal).flatten ++ rest)
        hvv hz
      rw [← hdrop1] at hfdB
      have hlen2 : (len : Int) + ((v.name.length + 1 + 8 + v.data.length : Nat) : Int)
          = ((len + (v.name.length + 1 + 8 + v.data.length) : Nat) : Int) := by
        push_cast; ring
      have hdropnext : buf.drop (len + (v.name.length + 1 + 8 + v.data.length))
          = (vs.map packVal).flatten ++ rest := by
        rw [← List.drop_drop, hdrop1]
        have hplen : (packVal v).length = v.name.length + 1 + 8 + v.data.length := by
          simp [packVal, packName, le32]
          omega
        rw [show v.name.length + 1 + 8 + v.data.length = (packVal v).length
          from hplen.symm, List.drop_left]
      have hzlen : v.data.length ≠ 0 := by
        intro h
        exact hz (List.length_eq_zero.mp h)
      show (unpackValuesLoop (vs.length + 1) buf (len : Int) acc).2 = _
      unfold unpackValuesLoop
      rw [htoNat, hfdB]
      show (unpackValuesLoop vs.length buf
        ((len : Int) + ((v.name.length + 1 + 8 + v.data.length : Nat) : Int))
        (if v.name ≠ [] ∧ v.data.length ≠ 0 then
          (⟨v.name, v.vtype, v.data⟩ : RegVal) :: acc else acc)).2 = _
      rw [hlen2]
      by_cases hnm : v.name = []
      · rw [if_neg (by simp [hnm])]
        rw [ih (fun x hx => hv x (by simp [hx])) buf _ acc _ hdropnext]
        simp [List.filter_cons, hnm]
      · rw [if_pos ⟨hnm, hzlen⟩]
        rw [ih (fun x hx => hv x (by simp [hx])) buf _
          (⟨v.name, v.vtype, v.data⟩ :: acc) _ hdropnext]
        simp [List.filter_cons, hnm, hz]

/-- After `regdb_store_values`, the value record holds the canonical packed
bytes (whether or not the byte-identical fast path was taken). -/
theorem store_values_stores (db : DB) (p : List Nat) (vals : List RegVal) :
    dbGet (regdb_store_values db p vals).1 (valKeyOf p)
      = some (packValues vals) := by
  unfold regdb_store_values
  cases hg : dbGet db (valKeyOf p) with
  | none =>
    simp only [hg]
    simp [dbGet, tblPut]
  | some old =>
    simp only [hg]
    split
    · rename_i heq
      rw [← heq]
      exact hg
    · simp [dbGet, tblPut]

/-- C9: the decode guard at line 713 silently skips every entry whose name
is empty, whose size is zero or whose data pointer is NULL; consequently a
`fetch_values` after a `store_values` returns exactly the entries with a
non-empty name and a non-empty payload, and any value stored with a
zero-length payload is omitted from the result. -/
theorem c9_zero_size_values_skipped (db : DB) (p : List Nat)
    (vals : List RegVal) (hv : ∀ v ∈ vals, validVal v)
    (hn : vals.length < 4294967296) :
    (regdb_fetch_values (regdb_store_values db p vals).1 p false).vals
      = vals.filter (fun v => !v.name.isEmpty && !v.data.isEmpty) ∧
    ∀ v ∈ vals, v.data = [] →
      v ∉ (regdb_fetch_values (regdb_store_values db p vals).1 p false).vals := by
  have hstored := store_values_stores db p vals
  have hunp : regdb_unpack_values (packValues vals)
      = (unpackValuesLoop vals.length (packValues vals) 4 []) := by
    unfold regdb_unpack_values packValues
    rw [unpack_d_le32 vals.length _ hn]
  have hdrop : (packValues vals).drop 4 = (vals.map packVal).flatten ++ [] := by
    unfold packValues
    rw [drop4_le32]
    simp
  have hloop := unpackValuesLoop_packed vals hv (packValues vals) 4 [] [] hdrop
  have hfetch : (regdb_fetch_values (regdb_store_values db p vals).1 p
      false).vals = vals.filter (fun v => !v.name.isEmpty && !v.data.isEmpty) := by
    unfold regdb_fetch_values
    simp only [Bool.false_eq_true, if_false, hstored, hunp]
    show (unpackValuesLoop vals.length (packValues vals) ((4 : Nat) : Int) []).2
      = _
    rw [hloop]
    simp
  refine ⟨hfetch, ?_⟩
  intro v hvm hvd hmem
  rw [hfetch] at hmem
  have := List.of_mem_filter hmem
  simp [hvd] at this

/-- Witness for C9: storing `a -> [5]`, `z -> []` (zero-length payload) and
`b -> [6,7]` under `K`; the fetch returns only `a` and `b`, and the
zero-length `z` entry is omitted. -/
theorem c9_zero_size_values_skipped_witness :
    (∀ v ∈ [(⟨str "a", 1, [5]⟩ : RegVal), ⟨str "z", 4, []⟩,
      ⟨str "b", 1, [6, 7]⟩], validVal v) ∧
    (regdb_fetch_values
        (regdb_store_values dbEmpty (str "K")
          [⟨str "a", 1, [5]⟩, ⟨str "z", 4, []⟩, ⟨str "b", 1, [6, 7]⟩]).1
        (str "K") false).vals
      = [⟨str "a", 1, [5]⟩, ⟨str "b", 1, [6, 7]⟩] :=
  ⟨by decide, by
    rw [(c9_zero_size_values_skipped dbEmpty (str "K")
      [⟨str "a", 1, [5]⟩, ⟨str "z", 4, []⟩, ⟨str "b", 1, [6, 7]⟩]
      (by decide) (by decide)).1]
    decide⟩

/-- C10: starting from the initial process state, no operation sequence ever
drives the reference count negative; a close at reference count zero returns
success (0) and changes nothing; and (in any state with a non-negative
count) the underlying handle is released by a close exactly when that close
takes the count from one to zero. -/
theorem c10_refcount_never_negative :
    (∀ ops : List HOp, 0 ≤ (hrun ops hInit).refcount) ∧
    (∀ s : HandleSt, s.refcount = 0 → regdb_close s = (s, 0)) ∧
    (∀ s : HandleSt, 0 ≤ s.refcount →
      (((regdb_close s).1.opened = false ∧ s.opened = true) ↔
        (s.refcount = 1 ∧ s.opened = true))) := by
  have hclose_inv : ∀ s : HandleSt, 0 ≤ s.refcount →
      0 ≤ (regdb_close s).1.refcount := by
    intro s h
    simp only [regdb_close]
    split
    · exact h
    · rename_i h0
      split
      · rename_i hr
        show 0 ≤ s.refcount - 1
        omega
      · show 0 ≤ s.refcount - 1
        omega
  have hstep_inv : ∀ (s : HandleSt) (op : HOp), 0 ≤ s.refcount →
      0 ≤ (hstep s op).refcount := by
    intro s op h
    cases op with
    | initOp ok =>
      show 0 ≤ (regdb_init_h s ok).1.refcount
      simp only [regdb_init_h]
      split
      · show 0 ≤ s.refcount + 1
        omega
      · split
        · show (0 : Int) ≤ 1
          omega
        · exact h
    | openOp ok =>
      show 0 ≤ (regdb_open_h s ok).1.refcount
      simp only [regdb_open_h]
      split
      · show 0 ≤ s.refcount + 1
        omega
      · show (0 : Int) ≤ 1
        omega
    | closeOp => exact hclose_inv s h
  have hruns : ∀ (ops : List HOp) (s : HandleSt), 0 ≤ s.refcount →
      0 ≤ (hrun ops s).refcount := by
    intro ops
    induction ops with
    | nil => intro s h; exact h
    | cons op rest ih =>
      intro s h
      show 0 ≤ (hrun rest (hstep s op)).refcount
      exact ih _ (hstep_inv s op h)
  refine ⟨fun ops => hruns ops hInit (by simp [hInit]), ?_, ?_⟩
  · intro s h
    simp only [regdb_close]
    rw [if_pos h]
  · intro s h
    simp only [regdb_close]
    by_cases h0 : s.refcount = 0
    · rw [if_pos h0]
      constructor
      · rintro ⟨h1, h2⟩
        rw [h2] at h1
        exact absurd h1 (by simp)
      · rintro ⟨h1, -⟩
        omega
    · rw [if_neg h0]
      by_cases hr : 0 < s.refcount - 1
      · rw [if_pos hr]
        constructor
        · rintro ⟨h1, h2⟩
          simp only [h2] at h1
          exact absurd h1 (by simp)
        · rintro ⟨h1, -⟩
          omega
      · rw [if_neg hr]
        have hone : s.refcount = 1 := by omega
        simp [hone]

/-- Witness for C10: after one successful init, a close releases the handle
(count 1 to 0) and two further closes at count zero are no-ops returning 0;
the run never sees a negative count. -/
theorem c10_refcount_never_negative_witness :
    0 ≤ (hrun [HOp.initOp true, HOp.closeOp, HOp.closeOp] hInit).refcount ∧
    regdb_close ⟨false, 0⟩ = (⟨false, 0⟩, 0) :=
  ⟨c10_refcount_never_negative.1 [HOp.initOp true, HOp.closeOp, HOp.closeOp],
    c10_refcount_never_negative.2.1 ⟨false, 0⟩ rfl⟩

end RegDb
